import Mathlib

/-!
Verification of the MIDI Event Timeline & Practice Scheduler core of the
PianoLearning application (reference implementation:
`PianoLearningApp_upd_5.py`).

The Python core is shallowly embedded: times in seconds are rationals,
MIDI tick counts are naturals, the Python `dict` used for the open-note
map becomes an insertion-ordered association list, and Python's stable
`sorted(..., key=lambda x: x['time'])` becomes `List.insertionSort` on
the time ordering (a stable sort, hence extensionally the same function).
-/

namespace PianoLearning

/-- The two kinds of note events the application stores in
`self.note_events` (the `'type'` field of the Python event dicts). -/
inductive EvKind : Type
  | on : EvKind
  | off : EvKind
  deriving DecidableEq

/-- One entry of `self.note_events`: a Python dict
`{'type', 'note', 'velocity', 'time'}` with time in absolute seconds. -/
structure NoteEvent : Type where
  kind : EvKind
  note : ℕ
  velocity : ℕ
  time : ℚ
  deriving DecidableEq

/-- A raw MIDI track message as delivered by `mido`: its delta time in
ticks plus the payload relevant to `process_midi_file` (note_on,
note_off, set_tempo; every other message type is only skipped, so it is
collapsed into `other`). -/
inductive MidiMsg : Type
  | noteOn (note velocity delta : ℕ)
  | noteOff (note velocity delta : ℕ)
  | setTempo (tempo delta : ℕ)
  | other (delta : ℕ)
  deriving DecidableEq

namespace MidiMsg

/-- The delta time (`msg.time`) of a message, in ticks. -/
def delta : MidiMsg → ℕ
  | .noteOn _ _ d => d
  | .noteOff _ _ d => d
  | .setTempo _ d => d
  | .other d => d

/-- The tempo payload of a `set_tempo` message, `none` otherwise. -/
def setTempoVal : MidiMsg → Option ℕ
  | .setTempo t _ => some t
  | _ => none

end MidiMsg

/-- A rational literal written so that the kernel can evaluate it (the
Mathlib numeral path for `ℚ` goes through `Nat.cast`, which does not
reduce); `q_eq` identifies it with the ordinary numeral. -/
def q (n : ℕ) : ℚ := mkRat (Int.ofNat n) 1

/-- Kernel-evaluable rational addition (Batteries marks `Rat.add`
`@[irreducible]`, which blocks `decide` witnesses); `radd_eq` says it
is ordinary addition. -/
def radd (a b : ℚ) : ℚ := mkRat (a.num * b.den + b.num * a.den) (a.den * b.den)

/-- Kernel-evaluable rational subtraction; `rsub_eq` says it is
ordinary subtraction. -/
def rsub (a b : ℚ) : ℚ := mkRat (a.num * b.den - b.num * a.den) (a.den * b.den)

/-- Model of `mido.tick2second(tick, ticks_per_beat, tempo)`:
`tick * tempo / (ticks_per_beat * 10^6)` seconds, with `tempo` in
microseconds per quarter note (stated via `mkRat` so that the kernel
can evaluate it; see `tick2second_eq`). -/
def tick2second (ticks ppq tempo : ℕ) : ℚ :=
  mkRat (Int.ofNat (ticks * tempo)) (ppq * 1000000)

/-- The module-level helper `get_tempo(midi_file)`: scan all tracks in
order and return the tempo of the first `set_tempo` message found
anywhere in the file, defaulting to 500000. -/
def get_tempo (tracks : List (List MidiMsg)) : ℕ :=
  (tracks.flatten.findSome? MidiMsg.setTempoVal).getD 500000

/-- Python dict assignment `d[k] = v` on an insertion-ordered
association list: update in place if the key is present, append
otherwise. -/
def dictInsert (k : ℕ) (v : ℚ) (m : List (ℕ × ℚ)) : List (ℕ × ℚ) :=
  if m.any (fun p => p.1 = k) then
    m.map (fun p => if p.1 = k then (k, v) else p)
  else m ++ [(k, v)]

/-- Python `if k in d: del d[k]` (deleting an absent key is the identity, so
the membership guard folds into the filter). -/
def dictDelete (k : ℕ) (m : List (ℕ × ℚ)) : List (ℕ × ℚ) :=
  m.filter (fun p => p.1 ≠ k)

/-- Python dict lookup `d.get(k)`. -/
def dictLookup (k : ℕ) (m : List (ℕ × ℚ)) : Option ℚ :=
  (m.find? (fun p => p.1 = k)).map (fun p => p.2)

/-- The mutable state threaded through `process_midi_file`'s loops:
the accumulating `self.note_events`, the current `tempo`, the
`active_notes` dict and the per-track running `track_time`. -/
structure IngestState : Type where
  events : List NoteEvent
  tempo : ℕ
  active : List (ℕ × ℚ)
  trackTime : ℕ
  deriving DecidableEq

/-- One iteration of the inner `for msg in track` loop of
`process_midi_file` (`PianoLearningApp_upd_5.py`, lines 856-890):
advance `track_time`, convert to seconds with the current tempo, then
dispatch on the message type.  A `note_on` with velocity 0 is recorded
as a note_off; `set_tempo` updates the tempo for subsequent messages. -/
def processMsg (ppq : ℕ) (s : IngestState) (msg : MidiMsg) : IngestState :=
  let t := s.trackTime + msg.delta
  let seconds := tick2second t ppq s.tempo
  match msg with
  | .noteOn note vel _ =>
      if 0 < vel then
        { events := s.events ++ [⟨EvKind.on, note, vel, seconds⟩],
          tempo := s.tempo,
          active := dictInsert note seconds s.active,
          trackTime := t }
      else
        { events := s.events ++ [⟨EvKind.off, note, 0, seconds⟩],
          tempo := s.tempo,
          active := dictDelete note s.active,
          trackTime := t }
  | .noteOff note _ _ =>
      { events := s.events ++ [⟨EvKind.off, note, 0, seconds⟩],
        tempo := s.tempo,
        active := dictDelete note s.active,
        trackTime := t }
  | .setTempo tp _ =>
      { events := s.events, tempo := tp, active := s.active, trackTime := t }
  | .other _ =>
      { events := s.events, tempo := s.tempo, active := s.active, trackTime := t }

/-- One iteration of the outer `for track in self.midi_file.tracks`
loop: reset `track_time` to 0 and process the track's messages.  The
tempo and the `active_notes` dict are *not* reset per track. -/
def processTrack (ppq : ℕ) (s : IngestState) (track : List MidiMsg) : IngestState :=
  track.foldl (processMsg ppq) { s with trackTime := 0 }

/-- The state after both loops of `process_midi_file`, starting from an
empty event list, `tempo = get_tempo(...)` and an empty dict. -/
def ingestState (ppq : ℕ) (tracks : List (List MidiMsg)) : IngestState :=
  tracks.foldl (processTrack ppq) ⟨[], get_tempo tracks, [], 0⟩

/-- The synthetic closing note_offs appended after the loops: one per
entry still in `active_notes`, two seconds after its recorded onset. -/
def syntheticOffs (active : List (ℕ × ℚ)) : List NoteEvent :=
  active.map (fun p => ⟨EvKind.off, p.1, 0, radd p.2 (q 2)⟩)

/-- The value of `self.note_events` just before the final sort. -/
def ingestEvents (ppq : ℕ) (tracks : List (List MidiMsg)) : List NoteEvent :=
  (ingestState ppq tracks).events ++ syntheticOffs (ingestState ppq tracks).active

/-- The timeline-ordering relation used by every
`sorted(..., key=lambda x: x['time'])` in the application. -/
def timeLE (a b : NoteEvent) : Prop := a.time ≤ b.time

instance : DecidableRel timeLE := fun a b => inferInstanceAs (Decidable (a.time ≤ b.time))

/-- Model of `PianoLearningApp.process_midi_file`: the final, time-sorted
`self.note_events` produced from a loaded file (`ppq` is
`midi_file.ticks_per_beat`). -/
def process_midi_file (ppq : ℕ) (tracks : List (List MidiMsg)) : List NoteEvent :=
  List.insertionSort timeLE (ingestEvents ppq tracks)

/-- Computation of `self.max_possible_score`: the number of note_on events. -/
def max_score (events : List NoteEvent) : ℕ :=
  (events.filter (fun e => e.kind = EvKind.on)).length

/-- The inner scan of `update_playback` (lines 492-498): walk
`note_events[i:]` looking for the first note_off for `note`; the note
is still playing unless that note_off has `time <= elapsed` (finding
one with `time > elapsed`, or none at all, leaves it playing). -/
def isStillPlaying (note : ℕ) (elapsed : ℚ) : List NoteEvent → Bool
  | [] => true
  | e :: rest =>
      if e.kind = EvKind.off ∧ e.note = note then decide (elapsed < e.time)
      else isStillPlaying note elapsed rest

/-- The `currently_playing` set built by `update_playback`
(lines 488-505): every pitch with a note_on at `time <= elapsed` whose
scan over the remaining events leaves it still playing.  This set is
assigned to `self.expected_notes` each tick. -/
def collectPlaying (elapsed : ℚ) : List NoteEvent → Finset ℕ
  | [] => ∅
  | e :: rest =>
      if e.kind = EvKind.on ∧ e.time ≤ elapsed ∧
          isStillPlaying e.note elapsed (e :: rest) = true then
        insert e.note (collectPlaying elapsed rest)
      else collectPlaying elapsed rest

/-- The nearest note_off for `note` among a list of events: the first
one in sequence order (for a time-sorted timeline this is the one with
the smallest time). -/
def firstOffFor (note : ℕ) (l : List NoteEvent) : Option NoteEvent :=
  l.find? (fun e => decide (e.kind = EvKind.off) && decide (e.note = note))

/-- The specification's interval-containment rule, stated in its own
words: pitch `n` is active at `elapsed` iff some note_on for `n` has
`t_on <= elapsed` and the nearest subsequent note_off for `n`, if any,
has `time > elapsed`. -/
def specActiveAt (events : List NoteEvent) (elapsed : ℚ) (n : ℕ) : Prop :=
  ∃ i : Fin events.length,
    (events.get i).kind = EvKind.on ∧ (events.get i).note = n ∧
    (events.get i).time ≤ elapsed ∧
    ∀ o ∈ firstOffFor n (events.drop (i.1 + 1)), elapsed < o.time

/-- The practice modes of the `mode_combo` box that the core branches
on.  Relaxation and Lyrics mode never touch the scheduler state
modelled here, so they are collapsed into `song`-vs-`jazz`. -/
inductive Mode : Type
  | song : Mode
  | jazz : Mode
  deriving DecidableEq

/-- The scheduler-relevant mutable state of `PianoLearningApp`.
Widgets, device handles, the canvas and the jazz-theory bookkeeping
(`good_notes`, `required_notes`) are outside the core; `theory_item`
is kept as a flag because `handle_note_on` branches on it.
`score_label` holds the percentage last written to the score label
(initially `Score: 0%`). -/
structure AppState : Type where
  mode : Mode
  theory_item : Bool
  midi_file : Bool
  note_events : List NoteEvent
  expected_notes : Finset ℕ
  playing_notes : Finset ℕ
  current_time : ℚ
  pause_time : ℚ
  score : ℕ
  max_possible_score : ℕ
  is_playing : Bool
  is_paused : Bool
  is_previewing : Bool
  is_recording : Bool
  recording_start_time : ℚ
  recorded_events : List NoteEvent
  score_label : ℚ
  deriving DecidableEq

/-- The state built by `PianoLearningApp.__init__`. -/
def initState : AppState where
  mode := Mode.song
  theory_item := false
  midi_file := false
  note_events := []
  expected_notes := ∅
  playing_notes := ∅
  current_time := 0
  pause_time := 0
  score := 0
  max_possible_score := 0
  is_playing := false
  is_paused := false
  is_previewing := false
  is_recording := false
  recording_start_time := 0
  recorded_events := []
  score_label := 0

/-- Model of `PianoLearningApp.update_score` (lines 1017-1020): only
when `max_possible_score > 0` is the percentage
`(score / max_possible_score) * 100` computed and written to the
label; otherwise nothing happens.  The rational
`mkRat (score * 100) max` is that percentage (see
`update_score_label`). -/
def update_score (s : AppState) : AppState :=
  if 0 < s.max_possible_score then
    { s with score_label := mkRat (Int.ofNat (s.score * 100)) s.max_possible_score }
  else s

/-- Model of `PianoLearningApp.handle_note_on` (lines 760-799): record
the event if recording, add the pitch to `playing_notes`, then either
do the jazz-theory bookkeeping (which never touches `score`) or, in
the `elif` branch, score the press when playing, not previewing, and
the pitch is expected. -/
def handle_note_on (note velocity : ℕ) (now : ℚ) (s : AppState) : AppState :=
  let s1 :=
    if s.is_recording then
      { s with recorded_events :=
          s.recorded_events ++ [⟨EvKind.on, note, velocity, rsub now s.recording_start_time⟩] }
    else s
  let s2 := { s1 with playing_notes := insert note s1.playing_notes }
  if s2.mode = Mode.jazz ∧ s2.theory_item = true then s2
  else if s2.is_playing && !s2.is_previewing then
    if note ∈ s2.expected_notes then
      update_score { s2 with score := s2.score + 1 }
    else s2
  else s2

/-- Model of `PianoLearningApp.handle_note_off` (lines 801-823). -/
def handle_note_off (note : ℕ) (now : ℚ) (s : AppState) : AppState :=
  let s1 :=
    if s.is_recording then
      { s with recorded_events :=
          s.recorded_events ++ [⟨EvKind.off, note, 0, rsub now s.recording_start_time⟩] }
    else s
  { s1 with playing_notes := s1.playing_notes.erase note }

/-- Model of `PianoLearningApp.stop_playing` (lines 932-943): clear the
playing/paused flags and the expected set (display and device resets
are outside the core). -/
def stop_playing (s : AppState) : AppState :=
  { s with is_playing := false, is_paused := false, expected_notes := ∅ }

/-- Model of `PianoLearningApp.start_playing` (lines 904-921): a no-op
without a loaded file; resuming from pause advances the origin
`current_time` by `now - pause_time`; a fresh start sets the origin to
`now` and resets the score and the expected set. -/
def start_playing (now : ℚ) (s : AppState) : AppState :=
  if !s.midi_file then s
  else if s.is_paused then
    { s with is_paused := false,
             current_time := radd s.current_time (rsub now s.pause_time),
             is_playing := true }
  else
    { s with current_time := now, score := 0, expected_notes := ∅, is_playing := true }

/-- Model of `PianoLearningApp.pause_playing` (lines 923-930): only
effective while playing; records the pause instant. -/
def pause_playing (now : ℚ) (s : AppState) : AppState :=
  if s.is_playing then
    { s with is_playing := false, is_paused := true, pause_time := now }
  else s

/-- The elapsed-time expression of `update_playback` (line 485):
`now - current_time` while not paused, frozen at
`pause_time - current_time` while paused. -/
def elapsedAt (now : ℚ) (s : AppState) : ℚ :=
  if s.is_paused then rsub s.pause_time s.current_time else rsub now s.current_time

/-- Model of the Song-Mode branch of `PianoLearningApp.update_playback`
(lines 484-523), the periodic tick handler.  It recomputes the active
set and assigns it to `expected_notes`; while previewing it also makes
`playing_notes` track that set.  It then evaluates
`note_events[-1]`: on an empty list this raises `IndexError`, which the
pair's second component records (the assignments made before the raise
persist, as they do in Python).  Past the last event plus the 2-second
grace period it stops playback and leaves preview mode. -/
def update_playback (now : ℚ) (s : AppState) : AppState × Bool :=
  if s.mode = Mode.song ∧ s.is_playing = true ∧ s.midi_file = true then
    let elapsed := elapsedAt now s
    let playing := collectPlaying elapsed s.note_events
    let s1 := if s.is_previewing then { s with playing_notes := playing } else s
    let s2 := { s1 with expected_notes := playing }
    match s2.note_events.getLast? with
    | none => (s2, true)
    | some lastEv =>
        if radd lastEv.time (q 2) < elapsed then
          let s3 := stop_playing s2
          ((if s3.is_previewing then { s3 with is_previewing := false } else s3), false)
        else (s2, false)
  else (s, false)

/-- Model of `PianoLearningApp.load_midi_file` + `process_midi_file`
(lines 825-902) for a file that parses successfully: set `midi_file`,
install the processed timeline and its maximum score, then
`stop_playing()`. -/
def load_midi_file (ppq : ℕ) (tracks : List (List MidiMsg)) (s : AppState) : AppState :=
  let evs := process_midi_file ppq tracks
  stop_playing
    { s with midi_file := true, note_events := evs, max_possible_score := max_score evs }

/-- Model of `PianoLearningApp.toggle_preview` (lines 955-967). -/
def toggle_preview (now : ℚ) (s : AppState) : AppState :=
  if !s.midi_file then s
  else if s.is_previewing then stop_playing { s with is_previewing := false }
  else start_playing now { s with is_previewing := true }

/-- Model of `PianoLearningApp.toggle_recording` (lines 969-981);
stopping exports `recorded_events` through `save_recording_to_midi`
but does not change the session state modelled here. -/
def toggle_recording (now : ℚ) (s : AppState) : AppState :=
  if s.is_recording then { s with is_recording := false }
  else
    { s with is_recording := true, recorded_events := [],
             recording_start_time := now }

/-- The operations a practice session can perform, each carrying the
wall-clock instant `now` at which it runs.  `noteInput` is a live MIDI
byte: status `0x90` with velocity `> 0` dispatches to
`handle_note_on`, anything else for the pitch to `handle_note_off`,
exactly as both input paths of the application do. -/
inductive Op : Type
  | load (ppq : ℕ) (tracks : List (List MidiMsg))
  | start (now : ℚ)
  | pause (now : ℚ)
  | stop
  | tick (now : ℚ)
  | noteInput (note velocity : ℕ) (now : ℚ)
  | preview (now : ℚ)
  | record (now : ℚ)

/-- One user-visible transition of the session. -/
def step (s : AppState) : Op → AppState
  | .load ppq tracks => load_midi_file ppq tracks s
  | .start now => start_playing now s
  | .pause now => pause_playing now s
  | .stop => stop_playing s
  | .tick now => (update_playback now s).1
  | .noteInput note vel now =>
      if 0 < vel then handle_note_on note vel now s else handle_note_off note now s
  | .preview now => toggle_preview now s
  | .record now => toggle_recording now s

/-- The state reached from a fresh application by a sequence of
operations. -/
def run (ops : List Op) : AppState := ops.foldl step initState

/-- Half, as a kernel-evaluable rational. -/
def halfQ : ℚ := mkRat 1 2

/-- Python's `round` to an integer, as used by `mido.second2tick`
(stated via `Rat.floor` so the kernel can evaluate it; `pyRound_eq`
identifies it with Mathlib's `round`, which agrees with Python's
round-half-to-even everywhere except exact `.5` ties — a measure-zero
disagreement that never affects the one-tick bounds proved here). -/
def pyRound (x : ℚ) : ℤ := Rat.floor (radd x halfQ)

/-- Model of `mido.second2tick(second, ticks_per_beat, tempo)`:
`round(second * ticks_per_beat * 10^6 / tempo)`, the exact inverse of
`tick2second` up to rounding (see `second2tick_eq`). -/
def second2tick (sec : ℚ) (ppq tempo : ℕ) : ℤ :=
  pyRound (mkRat (sec.num * Int.ofNat (ppq * 1000000)) (sec.den * tempo))

/-- The loop body of `save_recording_to_midi` (lines 1000-1010): for
each event, in time order, convert its absolute time to ticks, emit
the message with the delta against the previous event's (unrounded)
tick count, and remember the current tick count.  `int(delta_ticks)`
is the identity on the integer delta; `Int.toNat` here is exact for
time-sorted input (`current ≥ prev`), which is the only case the
caller produces. -/
def encodeLoop (ppq tempo : ℕ) : ℤ → List NoteEvent → List MidiMsg
  | _, [] => []
  | prev, e :: rest =>
      let current := second2tick e.time ppq tempo
      (match e.kind with
       | EvKind.on => MidiMsg.noteOn e.note e.velocity (current - prev).toNat
       | EvKind.off => MidiMsg.noteOff e.note 0 (current - prev).toNat)
        :: encodeLoop ppq tempo current rest

/-- Model of `PianoLearningApp.save_recording_to_midi`
(lines 983-1015): a single track starting with a `set_tempo 500000`
meta message at time 0, the recorded events sorted by time and
delta-encoded at the default 480 ticks per beat, and a final
end-of-track meta message (a non-note message, hence `other`). -/
def save_recording_to_midi (events : List NoteEvent) : List MidiMsg :=
  MidiMsg.setTempo 500000 0 ::
    (encodeLoop 480 500000 0 (List.insertionSort timeLE events) ++ [MidiMsg.other 0])

/-- One track of `process_midi_file`'s conversion, written as a pure
recursion over the messages: thread the running tick counter and the
tempo, convert each note message with the tempo in effect at that
point, and return the produced events together with the final tempo. -/
def convertTrack (ppq : ℕ) : ℕ → ℕ → List MidiMsg → List NoteEvent × ℕ
  | tempo, _, [] => ([], tempo)
  | tempo, t, msg :: rest =>
      let t' := t + msg.delta
      match msg with
      | .noteOn note vel _ =>
          let e : NoteEvent :=
            if 0 < vel then ⟨EvKind.on, note, vel, tick2second t' ppq tempo⟩
            else ⟨EvKind.off, note, 0, tick2second t' ppq tempo⟩
          let r := convertTrack ppq tempo t' rest
          (e :: r.1, r.2)
      | .noteOff note _ _ =>
          let r := convertTrack ppq tempo t' rest
          (⟨EvKind.off, note, 0, tick2second t' ppq tempo⟩ :: r.1, r.2)
      | .setTempo tp _ => convertTrack ppq tp t' rest
      | .other _ => convertTrack ppq tempo t' rest

/-- The conversion the code actually performs, compositionally: the
initial tempo is `get_tempo` (the first `set_tempo` found anywhere in
the file) and the tempo carries over from one track to the next. -/
def convertTracks (ppq : ℕ) : ℕ → List (List MidiMsg) → List NoteEvent
  | _, [] => []
  | tempo, track :: rest =>
      let r := convertTrack ppq tempo 0 track
      r.1 ++ convertTracks ppq r.2 rest

/-- The conversion the specification describes: every track starts
from the default tempo 500000 ("if no tempo message precedes the first
note" — in particular, a `set_tempo` appearing only after a note, or
only in another track, must not affect that note), and tempo state is
per-track. -/
def specPerTrackEvents (ppq : ℕ) (tracks : List (List MidiMsg)) : List NoteEvent :=
  (tracks.map (fun track => (convertTrack ppq 500000 0 track).1)).flatten

/-- The invariant threaded through single-track ingestion: the tempo
is the constant `T`, every pending onset in the open-note map is no
later than the current track position, and every note_on already
emitted either has a closing note_off among the emitted events or is
still covered by the open-note map. -/
def ClosedInv (ppq T : ℕ) (st : IngestState) : Prop :=
  st.tempo = T ∧
  (∀ p ∈ st.active, p.2 ≤ tick2second st.trackTime ppq T) ∧
  (∀ e ∈ st.events, e.kind = EvKind.on →
    (∃ o ∈ st.events, o.kind = EvKind.off ∧ o.note = e.note ∧ e.time ≤ o.time) ∨
    (∃ p ∈ st.active, p.1 = e.note ∧ e.time ≤ p.2))

/-- The Scenario-A timeline: C4 (pitch 60) sounding on [0, 1) s, then
E4 (pitch 64) sounding on [1, 2) s. -/
def scenarioA : List NoteEvent :=
  [⟨EvKind.on, 60, 90, 0⟩, ⟨EvKind.off, 60, 0, 1⟩,
   ⟨EvKind.on, 64, 90, 1⟩, ⟨EvKind.off, 64, 0, 2⟩]

/-- Recognizer for live note-on inputs in a trace: a `noteInput` byte
with velocity > 0.  A velocity-0 input dispatches to `handle_note_off`
and is a note-off, not a note-on. -/
def opIsNoteOn : Op → Bool
  | Op.noteInput _ velocity _ => 0 < velocity
  | _ => false

/-- The number of live note-on inputs in a trace. -/
def countNoteOns (ops : List Op) : ℕ := (ops.filter opIsNoteOn).length

/-- The image of one recorded event after the encode/decode round
trip: same kind and pitch, velocity as written to the file (note_offs
are written with velocity 0), and time snapped to the tick grid. -/
def decodeEvent (e : NoteEvent) : NoteEvent :=
  ⟨e.kind, e.note, (if e.kind = EvKind.on then e.velocity else 0),
    tick2second (second2tick e.time 480 500000).toNat 480 500000⟩

/-- The open-note-map transition of one decoded event during
re-ingestion: a note_on records its onset, a note_off deletes the
pitch. -/
def stepActive (a : List (ℕ × ℚ)) (e : NoteEvent) : List (ℕ × ℚ) :=
  if e.kind = EvKind.on then dictInsert e.note e.time a else dictDelete e.note a

/-- A recorded sequence is balanced when every note_on is followed
(strictly later in the sequence) by a note_off for the same pitch. -/
def BalancedEvents (l : List NoteEvent) : Prop :=
  ∀ i : Fin l.length, (l.get i).kind = EvKind.on →
    ∃ j : Fin l.length, i.1 < j.1 ∧ (l.get j).kind = EvKind.off ∧
      (l.get j).note = (l.get i).note

instance (l : List NoteEvent) : Decidable (BalancedEvents l) :=
  inferInstanceAs (Decidable (∀ i : Fin l.length, (l.get i).kind = EvKind.on →
    ∃ j : Fin l.length, i.1 < j.1 ∧ (l.get j).kind = EvKind.off ∧
      (l.get j).note = (l.get i).note))

/-! ## Theorems

Bridging lemmas for the kernel-evaluable arithmetic helpers, general
lemmas about the embedded operations, and one theorem (plus witness or
counterexample) per specification claim. -/

@[simp] theorem q_eq (n : ℕ) : q n = (n : ℚ) := by
  simp [q, Rat.mkRat_eq_div, Int.ofNat_eq_natCast]

@[simp] theorem radd_eq (a b : ℚ) : radd a b = a + b := (Rat.add_def' a b).symm

@[simp] theorem rsub_eq (a b : ℚ) : rsub a b = a - b := (Rat.sub_def' a b).symm

theorem tick2second_eq (ticks ppq tempo : ℕ) :
    tick2second ticks ppq tempo = (ticks * tempo : ℚ) / (ppq * 1000000) := by
  rw [tick2second, Rat.mkRat_eq_div]
  push_cast [Int.ofNat_eq_natCast]
  ring

theorem isStillPlaying_eq_firstOff (note : ℕ) (elapsed : ℚ) (l : List NoteEvent) :
    isStillPlaying note elapsed l =
      match firstOffFor note l with
      | none => true
      | some o => decide (elapsed < o.time) := by
  induction l with
  | nil => rfl
  | cons e rest ih =>
      by_cases h : e.kind = EvKind.off ∧ e.note = note
      · simp [isStillPlaying, if_pos h, firstOffFor, List.find?_cons, h.1, h.2]
      · have hpred : (decide (e.kind = EvKind.off) && decide (e.note = note)) = false := by
          rcases not_and_or.mp h with h1 | h1 <;> simp [h1]
        simp only [isStillPlaying, if_neg h, firstOffFor, List.find?_cons, hpred] at ih ⊢
        exact ih

theorem mem_collectPlaying (elapsed : ℚ) (events : List NoteEvent) (n : ℕ) :
    n ∈ collectPlaying elapsed events ↔ specActiveAt events elapsed n := by
  induction events with
  | nil =>
      simp only [collectPlaying, Finset.not_mem_empty, false_iff, specActiveAt]
      rintro ⟨⟨i, hi⟩, -⟩
      exact absurd hi (by simp)
  | cons e rest ih =>
      constructor
      · intro hmem
        by_cases hc : e.kind = EvKind.on ∧ e.time ≤ elapsed ∧
            isStillPlaying e.note elapsed (e :: rest) = true
        · rw [collectPlaying, if_pos hc] at hmem
          rcases Finset.mem_insert.mp hmem with rfl | hmem'
          · refine ⟨⟨0, by simp⟩, hc.1, rfl, hc.2.1, ?_⟩
            intro o ho
            have hstep : isStillPlaying e.note elapsed (e :: rest) =
                isStillPlaying e.note elapsed rest := by
              rw [isStillPlaying, if_neg]
              rintro ⟨h1, -⟩
              rw [hc.1] at h1
              exact EvKind.noConfusion h1
            have := hc.2.2
            rw [hstep, isStillPlaying_eq_firstOff] at this
            simp only [List.drop_succ_cons, List.drop_zero] at ho
            rw [ho] at this
            exact of_decide_eq_true this
          · obtain ⟨⟨i, hi⟩, h1, h2, h3, h4⟩ := ih.mp hmem'
            exact ⟨⟨i + 1, by simpa using Nat.succ_lt_succ hi⟩, h1, h2, h3, by
              simpa using h4⟩
        · rw [collectPlaying, if_neg hc] at hmem
          obtain ⟨⟨i, hi⟩, h1, h2, h3, h4⟩ := ih.mp hmem
          exact ⟨⟨i + 1, by simpa using Nat.succ_lt_succ hi⟩, h1, h2, h3, by simpa using h4⟩
      · rintro ⟨⟨i, hi⟩, h1, h2, h3, h4⟩
        match i with
        | 0 =>
            have he : (e :: rest).get ⟨0, hi⟩ = e := rfl
            rw [he] at h1 h2 h3
            simp only [List.drop_succ_cons, List.drop_zero] at h4
            have hstill : isStillPlaying e.note elapsed (e :: rest) = true := by
              have hstep : isStillPlaying e.note elapsed (e :: rest) =
                  isStillPlaying e.note elapsed rest := by
                rw [isStillPlaying, if_neg]
                rintro ⟨hk, -⟩
                rw [h1] at hk
                exact EvKind.noConfusion hk
              rw [hstep, isStillPlaying_eq_firstOff]
              cases hfo : firstOffFor e.note rest with
              | none => rfl
              | some o => simpa using h4 o (h2 ▸ hfo)
            rw [collectPlaying, if_pos ⟨h1, h3, hstill⟩]
            exact Finset.mem_insert.mpr (Or.inl h2.symm)
        | Nat.succ j =>
            have hj : j < rest.length := by simpa using Nat.lt_of_succ_lt_succ hi
            have hmem' : n ∈ collectPlaying elapsed rest := by
              refine ih.mpr ⟨⟨j, hj⟩, h1, h2, h3, by simpa using h4⟩
            rw [collectPlaying]
            split
            · exact Finset.mem_insert_of_mem hmem'
            · exact hmem'

/-- C1: for every loaded timeline and every elapsed time, the
expected/active set is given by interval containment: a pitch is in
the set computed by the tick handler iff some note_on for it has
`t_on <= elapsed` and the nearest subsequent note_off for that pitch,
if any, has `time > elapsed`; on the Scenario-A timeline (C4 sounding
[0,1) s, E4 sounding [1,2) s) the active set at 0.5 s is {60} and at
1.5 s is {64}. -/
theorem C1_expected_set_interval_containment :
    (∀ (events : List NoteEvent) (elapsed : ℚ) (n : ℕ),
        n ∈ collectPlaying elapsed events ↔ specActiveAt events elapsed n)
    ∧ collectPlaying (mkRat 1 2) scenarioA = {60}
    ∧ collectPlaying (mkRat 3 2) scenarioA = {64} :=
  ⟨fun events elapsed n => mem_collectPlaying elapsed events n, by decide, by decide⟩

/-- The inner `update_score()` call never changes `score` itself. -/
theorem update_score_score (s : AppState) : (update_score s).score = s.score := by
  rw [update_score]; split <;> rfl

/-- Outside an armed jazz-theory question, `handle_note_on` increments
`score` by exactly 1 when playing, not previewing and the pitch is
expected, and leaves it unchanged otherwise. -/
theorem handle_note_on_score (note velocity : ℕ) (now : ℚ) (s : AppState)
    (hj : ¬(s.mode = Mode.jazz ∧ s.theory_item = true)) :
    (handle_note_on note velocity now s).score =
      if s.is_playing = true ∧ s.is_previewing = false ∧ note ∈ s.expected_notes
      then s.score + 1 else s.score := by
  rw [handle_note_on]
  by_cases hr : s.is_recording <;>
    by_cases hp : s.is_playing <;>
      by_cases hv : s.is_previewing <;>
        by_cases hm : note ∈ s.expected_notes <;>
          simp [hr, hp, hv, hm, hj, update_score_score]

/-- A live note-on never changes the mode, the playback flags or the
expected set. -/
theorem handle_note_on_fields (note velocity : ℕ) (now : ℚ) (s : AppState) :
    (handle_note_on note velocity now s).mode = s.mode ∧
    (handle_note_on note velocity now s).theory_item = s.theory_item ∧
    (handle_note_on note velocity now s).is_playing = s.is_playing ∧
    (handle_note_on note velocity now s).is_previewing = s.is_previewing ∧
    (handle_note_on note velocity now s).expected_notes = s.expected_notes := by
  rw [handle_note_on, update_score]
  repeat' split
  all_goals simp

/-- C6: a live note-on for a pitch increments `score` by exactly 1 iff
playback is in the Playing state (`is_playing` and not previewing —
paused and stopped states clear `is_playing`) and the pitch is in the
current expected set; there is no deduplication guard, so a repeated
press of the same pitch while it stays expected increments the score
by 1 again. -/
theorem C6_live_note_on_scoring (s : AppState) (note velocity : ℕ) (now now' : ℚ)
    (hj : ¬(s.mode = Mode.jazz ∧ s.theory_item = true)) :
    ((handle_note_on note velocity now s).score = s.score + 1 ↔
      s.is_playing = true ∧ s.is_previewing = false ∧ note ∈ s.expected_notes)
    ∧ (s.is_playing = true → s.is_previewing = false → note ∈ s.expected_notes →
        (handle_note_on note velocity now' (handle_note_on note velocity now s)).score
          = s.score + 2) := by
  constructor
  · rw [handle_note_on_score note velocity now s hj]
    split
    · exact iff_of_true rfl ‹_›
    · exact iff_of_false (by omega) ‹_›
  · intro hp hv hm
    obtain ⟨hmode, hth, hpl, hpr, hexp⟩ := handle_note_on_fields note velocity now s
    rw [handle_note_on_score note velocity now' _ (fun hc => hj ⟨hmode ▸ hc.1, hth ▸ hc.2⟩),
        handle_note_on_score note velocity now s hj, hpl, hpr, hexp]
    simp [hp, hv, hm]

/-- Witness for C6 at a concrete reachable session: one note loaded,
playback started, one tick at 0.5 s; pressing pitch 60 scores 1, and
pressing it twice scores 2. -/
theorem C6_live_note_on_scoring_witness :
    (handle_note_on 60 100 1
        (run [Op.load 480 [[MidiMsg.noteOn 60 90 0]], Op.start 0, Op.tick (mkRat 1 2)])).score
      = (run [Op.load 480 [[MidiMsg.noteOn 60 90 0]], Op.start 0, Op.tick (mkRat 1 2)]).score + 1
    ∧ (handle_note_on 60 100 2 (handle_note_on 60 100 1
        (run [Op.load 480 [[MidiMsg.noteOn 60 90 0]], Op.start 0, Op.tick (mkRat 1 2)]))).score
      = (run [Op.load 480 [[MidiMsg.noteOn 60 90 0]], Op.start 0, Op.tick (mkRat 1 2)]).score + 2 := by
  have h := C6_live_note_on_scoring
    (run [Op.load 480 [[MidiMsg.noteOn 60 90 0]], Op.start 0, Op.tick (mkRat 1 2)])
    60 100 1 2 (by decide)
  exact ⟨h.1.mpr ⟨by decide, by decide, by decide⟩, h.2 (by decide) (by decide) (by decide)⟩

/-- Starting (or resuming) playback with a file loaded turns
`is_playing` on and changes neither the timeline, the loaded-file flag
nor the mode. -/
theorem start_playing_fields (now : ℚ) (s : AppState) (hmf : s.midi_file = true) :
    (start_playing now s).is_playing = true ∧
    (start_playing now s).note_events = s.note_events ∧
    (start_playing now s).midi_file = true ∧
    (start_playing now s).mode = s.mode := by
  rw [start_playing]
  simp only [hmf, Bool.not_true, Bool.false_eq_true, if_false]
  split <;> simp

/-- C9: on a successfully loaded file whose parsed note-event list is
empty, starting playback succeeds, and the next periodic tick reaches
`note_events[-1]` on the empty list and raises `IndexError` (the
error flag of the modelled tick); conversely the tick handler never
raises when the parsed event list is non-empty, so it is total exactly
under that precondition. -/
theorem C9_empty_timeline_tick_raises (s : AppState) (now now' : ℚ)
    (hev : s.note_events = []) (hmf : s.midi_file = true) (hmode : s.mode = Mode.song) :
    ((start_playing now s).is_playing = true ∧
      (update_playback now' (start_playing now s)).2 = true)
    ∧ (∀ (t : AppState) (now'' : ℚ), t.note_events ≠ [] →
        (update_playback now'' t).2 = false) := by
  constructor
  · obtain ⟨h1, h2, h3, h4⟩ := start_playing_fields now s hmf
    refine ⟨h1, ?_⟩
    rw [update_playback, if_pos ⟨h4.trans hmode, h1, h3⟩]
    split <;> simp_all
  · intro t now'' hne
    rcases hl : t.note_events.getLast? with _ | lastEv
    · exact absurd (List.getLast?_eq_none_iff.mp hl) hne
    · rw [update_playback]
      split
      · by_cases hprev : t.is_previewing = true <;>
          simp only [hprev, if_true, if_false, Bool.false_eq_true, hl] <;>
          split <;> rfl
      · rfl

/-- Witness for C9: loading a structurally valid file with no note
messages yields an empty timeline; starting and ticking raises, while
a loaded one-note session ticks without error. -/
theorem C9_empty_timeline_tick_raises_witness :
    (start_playing 0 (load_midi_file 480 [[]] initState)).is_playing = true ∧
    (update_playback 1 (start_playing 0 (load_midi_file 480 [[]] initState))).2 = true ∧
    (update_playback 1 (run [Op.load 480 [[MidiMsg.noteOn 60 90 0]], Op.start 0])).2 = false := by
  have h := C9_empty_timeline_tick_raises (load_midi_file 480 [[]] initState) 0 1
    (by decide) (by decide) (by decide)
  exact ⟨h.1.1, h.1.2, h.2 (run [Op.load 480 [[MidiMsg.noteOn 60 90 0]], Op.start 0]) 1 (by decide)⟩

/-- C4 (amended): the clock is exactly frozen across a pause: pausing
at `R1` while playing and resuming at `R2` makes `elapsed()` measured
at `R2`, immediately after the resume, equal `elapsed()` measured at
`R1`, because resume advances the origin by `now - pauseInstant`. -/
theorem C4_pause_resume_frozen (s : AppState) (R1 R2 : ℚ)
    (hmf : s.midi_file = true) (hp : s.is_playing = true) (hnp : s.is_paused = false) :
    elapsedAt R2 (start_playing R2 (pause_playing R1 s)) = elapsedAt R1 s := by
  simp [pause_playing, start_playing, elapsedAt, hp, hnp, hmf]
  ring

/-- Counterexample to C4 as stated: with the pause strictly after `R1`
(here `R1 = 1`, pause at 2, resume at 2.5, measured at `R2 = 3`) the
clock runs on between `R1` and the pause and between the resume and
`R2`, so the two measurements differ (2.5 vs 1). -/
theorem C4_counterexample :
    ¬ (elapsedAt 3 (start_playing (mkRat 5 2) (pause_playing 2
        (run [Op.load 480 [[MidiMsg.noteOn 60 90 0]], Op.start 0])))
      = elapsedAt 1 (run [Op.load 480 [[MidiMsg.noteOn 60 90 0]], Op.start 0])) := by decide

/-- Witness for the amended C4 at a concrete session: pause at 1,
resume at 2. -/
theorem C4_witness :
    elapsedAt 2 (start_playing 2 (pause_playing 1
        (run [Op.load 480 [[MidiMsg.noteOn 60 90 0]], Op.start 0])))
      = elapsedAt 1 (run [Op.load 480 [[MidiMsg.noteOn 60 90 0]], Op.start 0]) :=
  C4_pause_resume_frozen (run [Op.load 480 [[MidiMsg.noteOn 60 90 0]], Op.start 0]) 1 2
    (by decide) (by decide) (by decide)
/-- A live note-on adds at most 1 to the score, in every mode. -/
theorem handle_note_on_score_le (note velocity : ℕ) (now : ℚ) (s : AppState) :
    (handle_note_on note velocity now s).score ≤ s.score + 1 := by
  rw [handle_note_on, update_score]
  repeat' split
  all_goals simp

/-- A live note-off never changes the score. -/
theorem handle_note_off_score (note : ℕ) (now : ℚ) (s : AppState) :
    (handle_note_off note now s).score = s.score := by
  rw [handle_note_off]
  split <;> rfl

/-- The periodic tick never changes the score. -/
theorem update_playback_score (now : ℚ) (s : AppState) :
    ((update_playback now s).1).score = s.score := by
  rw [update_playback]
  split
  · rcases hl : s.note_events.getLast? with _ | lastEv <;>
      by_cases hprev : s.is_previewing = true <;>
        simp only [hprev, if_true, if_false, Bool.false_eq_true, eq_self_iff_true, hl] <;>
        (repeat' split) <;> rfl
  · rfl

/-- Each session operation adds at most 1 to the score, and only a
live note-on input (velocity > 0) can add anything: a velocity-0
input runs `handle_note_off`, which never touches the score. -/
theorem step_score_le (s : AppState) (op : Op) :
    (step s op).score ≤ s.score + (if opIsNoteOn op then 1 else 0) := by
  cases op with
  | load ppq tracks => simp [step, load_midi_file, stop_playing, opIsNoteOn]
  | start now =>
      simp only [step, start_playing, opIsNoteOn, if_false]
      repeat' split
      all_goals simp
  | pause now =>
      simp only [step, pause_playing, opIsNoteOn, if_false]
      split <;> simp
  | stop => simp [step, stop_playing, opIsNoteOn]
  | tick now => simp [step, update_playback_score, opIsNoteOn]
  | noteInput note vel now =>
      by_cases hv : 0 < vel
      · have h1 : step s (Op.noteInput note vel now) = handle_note_on note vel now s := by
          simp [step, hv]
        have h2 : (if opIsNoteOn (Op.noteInput note vel now) = true then 1 else 0) = 1 := by
          simp [opIsNoteOn, hv]
        rw [h1, h2]
        exact handle_note_on_score_le note vel now s
      · have h1 : step s (Op.noteInput note vel now) = handle_note_off note now s := by
          simp [step, hv]
        have h2 : (if opIsNoteOn (Op.noteInput note vel now) = true then 1 else 0) = 0 := by
          simp [opIsNoteOn, hv]
        rw [h1, h2, handle_note_off_score]
        omega
  | preview now =>
      simp only [step, toggle_preview, opIsNoteOn, if_false]
      repeat' split
      all_goals simp [stop_playing, start_playing]
      all_goals repeat' split
      all_goals simp
  | record now =>
      simp only [step, toggle_recording, opIsNoteOn, if_false]
      split <;> simp

/-- Trace induction for the score bound. -/
theorem foldl_step_score_le (ops : List Op) :
    ∀ s : AppState, (ops.foldl step s).score ≤ s.score + countNoteOns ops := by
  induction ops with
  | nil => intro s; simp [countNoteOns]
  | cons op rest ih =>
      intro s
      have h1 := ih (step s op)
      have h2 := step_score_le s op
      have h3 : countNoteOns (op :: rest) =
          (if opIsNoteOn op then 1 else 0) + countNoteOns rest := by
        rw [countNoteOns, countNoteOns, List.filter_cons]
        split <;> (try simp only [List.length_cons]) <;> omega
      rw [List.foldl_cons, h3]
      omega

/-- C5 (amended): in every reachable state of a practice session the
score never exceeds the number of live note-on inputs (velocity > 0)
handled.  The original bound by `maxScore` fails because repeated
presses of an expected pitch are each scored (see the
counterexample). -/
theorem C5_score_bounded_by_note_ons (ops : List Op) :
    (run ops).score ≤ countNoteOns ops := by
  simpa [initState] using foldl_step_score_le ops initState

/-- Counterexample to C5 as stated: a reachable session over a
one-note timeline (`maxScore = 1`) in which pressing the expected
pitch twice drives the score to 2 > `maxScore`. -/
theorem C5_counterexample :
    (run [Op.load 480 [[MidiMsg.noteOn 60 90 0]], Op.start 0, Op.tick (mkRat 1 2),
      Op.noteInput 60 100 1, Op.noteInput 60 100 1]).max_possible_score
    < (run [Op.load 480 [[MidiMsg.noteOn 60 90 0]], Op.start 0, Op.tick (mkRat 1 2),
      Op.noteInput 60 100 1, Op.noteInput 60 100 1]).score := by decide
/-- The kernel-evaluable percentage stored by `update_score` is
`(score / maxScore) * 100`. -/
theorem mkRat_percentage (score mx : ℕ) (h : 0 < mx) :
    (mkRat (Int.ofNat (score * 100)) mx : ℚ) = ((score : ℚ) / mx) * 100 := by
  rw [Rat.mkRat_eq_div]
  have hmx : (mx : ℚ) ≠ 0 := Nat.cast_ne_zero.mpr h.ne'
  push_cast [Int.ofNat_eq_natCast]
  field_simp

/-- C8 (amended): whenever `maxScore > 0` the reported percentage is
exactly `100 * score / maxScore` (the `.1f` formatting is pure
display); when `maxScore = 0` the update performs no division at all —
it leaves the state, and hence the previously reported percentage,
unchanged (rather than reporting 0). -/
theorem C8_percentage (s : AppState) :
    (0 < s.max_possible_score →
      (update_score s).score_label = ((s.score : ℚ) / s.max_possible_score) * 100)
    ∧ (s.max_possible_score = 0 → update_score s = s) := by
  constructor
  · intro h
    rw [update_score, if_pos h]
    exact mkRat_percentage s.score s.max_possible_score h
  · intro h
    rw [update_score, if_neg (by omega)]

/-- Counterexample to C8 as stated: after scoring 100% on a one-note
song and then loading an empty timeline (`maxScore = 0`), the score
update leaves the reported percentage at 100, not 0 — the update skips
the division but does not yield 0. -/
theorem C8_counterexample :
    (run [Op.load 480 [[MidiMsg.noteOn 60 90 0]], Op.start 0, Op.tick (mkRat 1 2),
        Op.noteInput 60 100 1, Op.load 480 [[]]]).max_possible_score = 0
    ∧ (update_score (run [Op.load 480 [[MidiMsg.noteOn 60 90 0]], Op.start 0,
        Op.tick (mkRat 1 2), Op.noteInput 60 100 1, Op.load 480 [[]]])).score_label ≠ 0 := by
  constructor
  · decide
  · decide

/-- Witness for the amended C8: a session with `maxScore = 1` and one
scored press reports exactly `100 * score / maxScore`; on an empty
timeline the update is the identity. -/
theorem C8_witness :
    (update_score (run [Op.load 480 [[MidiMsg.noteOn 60 90 0]], Op.start 0,
        Op.tick (mkRat 1 2), Op.noteInput 60 100 1])).score_label
      = (((run [Op.load 480 [[MidiMsg.noteOn 60 90 0]], Op.start 0,
          Op.tick (mkRat 1 2), Op.noteInput 60 100 1]).score : ℚ) /
        (run [Op.load 480 [[MidiMsg.noteOn 60 90 0]], Op.start 0,
          Op.tick (mkRat 1 2), Op.noteInput 60 100 1]).max_possible_score) * 100
    ∧ update_score (run [Op.load 480 [[]]]) = run [Op.load 480 [[]]] :=
  ⟨(C8_percentage _).1 (by decide), (C8_percentage _).2 (by decide)⟩
/-- A property preserved by every step of a fold holds of its result. -/
theorem foldl_preserves {σ α : Type _} (P : σ → Prop) (f : σ → α → σ)
    (l : List α) (s : σ) (h0 : P s) (hstep : ∀ s' a, a ∈ l → P s' → P (f s' a)) :
    P (l.foldl f s) := by
  induction l generalizing s with
  | nil => exact h0
  | cons a t ih =>
      exact ih (f s a) (hstep s a (by simp) h0) fun s' b hb => hstep s' b (by simp [hb])

/-- Dict assignment leaves the key list unchanged when the key is
present and appends it otherwise. -/
theorem dictInsert_keys (k : ℕ) (v : ℚ) (m : List (ℕ × ℚ)) :
    (dictInsert k v m).map Prod.fst =
      if (m.any (fun p => p.1 = k)) = true then m.map Prod.fst
      else m.map Prod.fst ++ [k] := by
  rw [dictInsert]
  split
  · next h =>
      rw [List.map_map]
      apply List.map_congr_left
      intro p _
      by_cases hp : p.1 = k <;> simp [hp]
  · next h => simp [h]

/-- Dict assignment keeps the keys duplicate-free. -/
theorem dictInsert_nodup (k : ℕ) (v : ℚ) (m : List (ℕ × ℚ))
    (h : (m.map Prod.fst).Nodup) : ((dictInsert k v m).map Prod.fst).Nodup := by
  rw [dictInsert_keys]
  split
  · exact h
  · next hany =>
      have hk : k ∉ m.map Prod.fst := by
        intro hmem
        obtain ⟨p, hp, hpk⟩ := List.mem_map.mp hmem
        have : m.any (fun p => p.1 = k) = true := List.any_eq_true.mpr ⟨p, hp, by simp [hpk]⟩
        exact absurd this hany
      exact List.nodup_append.mpr ⟨h, List.nodup_singleton k,
        fun x hx hmem => hk ((List.mem_singleton.mp hmem) ▸ hx)⟩

/-- Dict deletion filters the key out of the key list. -/
theorem dictDelete_keys (k : ℕ) (m : List (ℕ × ℚ)) :
    (dictDelete k m).map Prod.fst = (m.map Prod.fst).filter (fun x => x ≠ k) := by
  rw [dictDelete]
  show List.map Prod.fst (List.filter ((fun x => decide (x ≠ k)) ∘ Prod.fst) m) = _
  exact (List.filter_map Prod.fst m).symm

/-- Dict deletion keeps the keys duplicate-free. -/
theorem dictDelete_nodup (k : ℕ) (m : List (ℕ × ℚ))
    (h : (m.map Prod.fst).Nodup) : ((dictDelete k m).map Prod.fst).Nodup := by
  rw [dictDelete_keys]
  exact h.filter _

/-- Each ingestion step preserves the open-note map's dict invariant:
at most one binding per pitch. -/
theorem processMsg_active_nodup (ppq : ℕ) (s : IngestState) (msg : MidiMsg)
    (h : (s.active.map Prod.fst).Nodup) :
    ((processMsg ppq s msg).active.map Prod.fst).Nodup := by
  cases msg with
  | noteOn note vel d =>
      rw [processMsg]
      split
      · exact dictInsert_nodup _ _ _ h
      · exact dictDelete_nodup _ _ h
  | noteOff note vel d => rw [processMsg]; exact dictDelete_nodup _ _ h
  | setTempo tp d => rw [processMsg]; exact h
  | other d => rw [processMsg]; exact h

/-- Throughout ingestion the open-note map holds at most one pending
onset per pitch. -/
theorem ingestState_active_nodup (ppq : ℕ) (tracks : List (List MidiMsg)) :
    (((ingestState ppq tracks).active.map Prod.fst)).Nodup := by
  rw [ingestState]
  refine foldl_preserves (fun st : IngestState => ((st.active.map Prod.fst)).Nodup)
    (processTrack ppq) tracks _ (by simp) ?_
  intro st track _ hst
  rw [processTrack]
  exact foldl_preserves (fun st' : IngestState => ((st'.active.map Prod.fst)).Nodup)
    (processMsg ppq) track _ hst
    (fun st' m _ h' => processMsg_active_nodup ppq st' m h')

/-- Looking up an overwritten key finds the new binding. -/
theorem find?_map_overwrite (k : ℕ) (v : ℚ) (m : List (ℕ × ℚ))
    (h : m.any (fun p => p.1 = k) = true) :
    (m.map (fun p => if p.1 = k then (k, v) else p)).find? (fun p => p.1 = k)
      = some (k, v) := by
  induction m with
  | nil => simp at h
  | cons p t ih =>
      by_cases hp : p.1 = k
      · simp [List.find?_cons, hp]
      · have h' : t.any (fun p => p.1 = k) = true := by
          rcases List.any_eq_true.mp h with ⟨x, hx, hxk⟩
          rcases List.mem_cons.mp hx with rfl | hxt
          · exact absurd (of_decide_eq_true hxk) hp
          · exact List.any_eq_true.mpr ⟨x, hxt, hxk⟩
        simpa [List.find?_cons, hp] using ih h'

/-- Looking up a freshly appended key finds it. -/
theorem find?_append_last (k : ℕ) (v : ℚ) (m : List (ℕ × ℚ))
    (h : m.any (fun p => p.1 = k) = false) :
    (m ++ [(k, v)]).find? (fun p => p.1 = k) = some (k, v) := by
  induction m with
  | nil => simp
  | cons p t ih =>
      rw [List.any_cons, Bool.or_eq_false_iff] at h
      have hp : ¬ p.1 = k := by simpa using h.1
      simpa [List.find?_cons, hp] using ih h.2

/-- Dict assignment semantics: after `d[k] = v` the lookup of `k`
yields `v` — in particular a second note_on for a pitch overwrites the
recorded onset time. -/
theorem dictLookup_insert (k : ℕ) (v : ℚ) (m : List (ℕ × ℚ)) :
    dictLookup k (dictInsert k v m) = some v := by
  rw [dictLookup, dictInsert]
  split
  · next h => rw [find?_map_overwrite k v m h]; rfl
  · next h => rw [find?_append_last k v m (Bool.eq_false_iff.mpr h)]; rfl

/-- A duplicate-free list contains at most one occurrence of any
value. -/
theorem nodup_filter_eq_length_le_one {l : List ℕ} (h : l.Nodup) (p : ℕ) :
    (l.filter (fun x => x = p)).length ≤ 1 := by
  induction l with
  | nil => simp
  | cons a t ih =>
      rw [List.filter_cons]
      by_cases ha : a = p
      · subst ha
        have ht : t.filter (fun x => x = a) = [] := by
          rw [List.filter_eq_nil_iff]
          intro x hx hxa
          exact (List.nodup_cons.mp h).1 ((of_decide_eq_true hxa) ▸ hx)
        simp [ht]
      · simpa [ha] using ih (List.nodup_cons.mp h).2

/-- A duplicate-free open-note map yields at most one synthetic
note_off per pitch. -/
theorem syntheticOffs_per_pitch (active : List (ℕ × ℚ))
    (h : (active.map Prod.fst).Nodup) (p : ℕ) :
    ((syntheticOffs active).filter (fun e => e.note = p)).length ≤ 1 := by
  rw [syntheticOffs, List.filter_map, List.length_map]
  have h2 : ((active.map Prod.fst).filter (fun x => x = p)).length ≤ 1 :=
    nodup_filter_eq_length_le_one h p
  rw [List.filter_map, List.length_map] at h2
  exact h2

/-- C10: the open-note map holds at most one pending onset per pitch
(`active_notes` is a dict, its key list stays duplicate-free, and a
second note_on with no intervening note_off overwrites the recorded
onset); hence at most one synthetic note_off is appended per pitch.
Concretely, two unclosed note_ons for pitch 60 (at 0 s and 1 s) yield
a single synthetic note_off at 3 s — two seconds after the *second*
onset — leaving the earlier note_on without its own matching
note_off. -/
theorem C10_open_note_map :
    (∀ (m : List (ℕ × ℚ)) (k : ℕ) (v : ℚ), dictLookup k (dictInsert k v m) = some v)
    ∧ (∀ (ppq : ℕ) (tracks : List (List MidiMsg)),
        ((ingestState ppq tracks).active.map Prod.fst).Nodup
        ∧ ∀ p : ℕ,
          ((syntheticOffs (ingestState ppq tracks).active).filter
              (fun e => e.note = p)).length ≤ 1)
    ∧ process_midi_file 480 [[MidiMsg.noteOn 60 90 0, MidiMsg.noteOn 60 90 960]]
        = [⟨EvKind.on, 60, 90, 0⟩, ⟨EvKind.on, 60, 90, q 1⟩, ⟨EvKind.off, 60, 0, q 3⟩] :=
  ⟨fun m k v => dictLookup_insert k v m,
   fun ppq tracks => ⟨ingestState_active_nodup ppq tracks,
     fun p => syntheticOffs_per_pitch _ (ingestState_active_nodup ppq tracks) p⟩,
   by decide⟩
/-- The inner message loop of `process_midi_file`, defolded: its
events component is the accumulator followed by the pure per-track
conversion, and its tempo component is the conversion's final tempo
(independently of the open-note map). -/
theorem foldl_processMsg_convert (ppq : ℕ) (msgs : List MidiMsg) :
    ∀ (acc : List NoteEvent) (T : ℕ) (act : List (ℕ × ℚ)) (t : ℕ),
      (msgs.foldl (processMsg ppq) ⟨acc, T, act, t⟩).events
          = acc ++ (convertTrack ppq T t msgs).1
      ∧ (msgs.foldl (processMsg ppq) ⟨acc, T, act, t⟩).tempo
          = (convertTrack ppq T t msgs).2 := by
  induction msgs with
  | nil => intro acc T act t; simp [convertTrack]
  | cons msg rest ih =>
      intro acc T act t
      rw [List.foldl_cons]
      cases msg with
      | noteOn note vel d =>
          rw [processMsg]
          dsimp only [MidiMsg.delta]
          by_cases hv : 0 < vel
          · rw [if_pos hv]
            obtain ⟨h1, h2⟩ := ih (acc ++ [⟨EvKind.on, note, vel, tick2second (t + d) ppq T⟩])
              T (dictInsert note (tick2second (t + d) ppq T) act) (t + d)
            rw [convertTrack]
            dsimp only [MidiMsg.delta]
            rw [if_pos hv]
            exact ⟨by rw [h1, List.append_assoc]; rfl, h2⟩
          · rw [if_neg hv]
            obtain ⟨h1, h2⟩ := ih (acc ++ [⟨EvKind.off, note, 0, tick2second (t + d) ppq T⟩])
              T (dictDelete note act) (t + d)
            rw [convertTrack]
            dsimp only [MidiMsg.delta]
            rw [if_neg hv]
            exact ⟨by rw [h1, List.append_assoc]; rfl, h2⟩
      | noteOff note vel d =>
          rw [processMsg]
          dsimp only [MidiMsg.delta]
          obtain ⟨h1, h2⟩ := ih (acc ++ [⟨EvKind.off, note, 0, tick2second (t + d) ppq T⟩])
            T (dictDelete note act) (t + d)
          rw [convertTrack]
          dsimp only [MidiMsg.delta]
          exact ⟨by rw [h1, List.append_assoc]; rfl, h2⟩
      | setTempo tp d =>
          rw [processMsg]
          dsimp only [MidiMsg.delta]
          obtain ⟨h1, h2⟩ := ih acc tp act (t + d)
          rw [convertTrack]
          exact ⟨h1, h2⟩
      | other d =>
          rw [processMsg]
          dsimp only [MidiMsg.delta]
          obtain ⟨h1, h2⟩ := ih acc T act (t + d)
          rw [convertTrack]
          exact ⟨h1, h2⟩

/-- The outer track loop of `process_midi_file`, defolded: the raw
event list is the compositional conversion with the tempo threaded
from each track into the next. -/
theorem foldl_processTrack_convert (ppq : ℕ) (tracks : List (List MidiMsg)) :
    ∀ (acc : List NoteEvent) (T : ℕ) (act : List (ℕ × ℚ)) (t : ℕ),
      (tracks.foldl (processTrack ppq) ⟨acc, T, act, t⟩).events
          = acc ++ convertTracks ppq T tracks := by
  induction tracks with
  | nil => intro acc T act t; simp [convertTracks]
  | cons track rest ih =>
      intro acc T act t
      rw [List.foldl_cons, processTrack]
      obtain ⟨h1, h2⟩ := foldl_processMsg_convert ppq track acc T act 0
      rcases hs : track.foldl (processMsg ppq) ⟨acc, T, act, 0⟩ with ⟨evs', T', act', t'⟩
      rw [hs] at h1 h2
      dsimp only at h1 h2
      rw [ih evs' T' act' t', h1, h2, convertTracks, List.append_assoc]

/-- Counterexample to C7 as stated: in a track whose only `set_tempo`
(1000000 us/qn) comes *after* its only note, the claim requires the
note to be converted at the default 500000 (0.5 s at 480 ticks,
ppq 480), but `get_tempo` pre-scans the whole file, so the code
converts it at 1000000 (1.0 s). -/
theorem C7_counterexample :
    ¬ ((ingestState 480 [[MidiMsg.noteOn 60 90 480, MidiMsg.setTempo 1000000 0]]).events
        = specPerTrackEvents 480 [[MidiMsg.noteOn 60 90 480, MidiMsg.setTempo 1000000 0]]) := by
  decide

/-- C7 (amended): each message's cumulative tick position is
converted with the tempo in effect at that point of the file-wide
processing order, where the *initial* tempo is the first `set_tempo`
found anywhere in the file (500000 only when the file has none), each
`set_tempo` updates the tempo for subsequent messages, and the tempo
carries across track boundaries instead of being per-track. -/
theorem C7_tempo_conversion (ppq : ℕ) (tracks : List (List MidiMsg)) :
    (ingestState ppq tracks).events = convertTracks ppq (get_tempo tracks) tracks
    ∧ ((∀ m ∈ tracks.flatten, m.setTempoVal = none) → get_tempo tracks = 500000) := by
  constructor
  · rw [ingestState]
    simpa using foldl_processTrack_convert ppq tracks [] (get_tempo tracks) [] 0
  · intro h
    rw [get_tempo, List.findSome?_eq_none_iff.mpr h]
    rfl
/-- Witness for the amended C7 at a concrete one-note, no-tempo file:
the conversion agrees with the compositional semantics and the default
tempo 500000 applies. -/
theorem C7_tempo_conversion_witness :
    (ingestState 480 [[MidiMsg.noteOn 60 90 480]]).events
        = convertTracks 480 (get_tempo [[MidiMsg.noteOn 60 90 480]]) [[MidiMsg.noteOn 60 90 480]]
    ∧ get_tempo [[MidiMsg.noteOn 60 90 480]] = 500000 :=
  ⟨(C7_tempo_conversion 480 [[MidiMsg.noteOn 60 90 480]]).1,
   (C7_tempo_conversion 480 [[MidiMsg.noteOn 60 90 480]]).2 (by decide)⟩

/-- With a fixed tempo, tick-to-seconds conversion is monotone in the
tick count. -/
theorem tick2second_mono (ppq tempo : ℕ) {t1 t2 : ℕ} (h : t1 ≤ t2) :
    tick2second t1 ppq tempo ≤ tick2second t2 ppq tempo := by
  rw [tick2second_eq, tick2second_eq]
  apply div_le_div_of_nonneg_right ?_ (by positivity)
  exact mul_le_mul_of_nonneg_right (by exact_mod_cast h) (by positivity)

/-- An entry of `d[k] = v` is either the new binding or an old entry
with a different key. -/
theorem mem_dictInsert_elim (k : ℕ) (v : ℚ) (m : List (ℕ × ℚ)) (x : ℕ × ℚ)
    (hx : x ∈ dictInsert k v m) : x = (k, v) ∨ (x ∈ m ∧ x.1 ≠ k) := by
  rw [dictInsert] at hx
  split at hx
  · obtain ⟨p, hp, hpx⟩ := List.mem_map.mp hx
    by_cases h : p.1 = k
    · left
      rw [← hpx]
      simp [h]
    · right
      rw [← hpx]
      simp only [if_neg h]
      exact ⟨hp, h⟩
  · next hany =>
      rcases List.mem_append.mp hx with h | h
      · refine Or.inr ⟨h, fun hk => ?_⟩
        have : m.any (fun p => p.1 = k) = true := List.any_eq_true.mpr ⟨x, h, by simp [hk]⟩
        exact absurd this hany
      · left
        simpa using h

/-- After `d[k] = v` the binding `(k, v)` is present. -/
theorem self_mem_dictInsert (k : ℕ) (v : ℚ) (m : List (ℕ × ℚ)) :
    (k, v) ∈ dictInsert k v m := by
  rw [dictInsert]
  split
  · next h =>
      obtain ⟨p, hp, hpk⟩ := List.any_eq_true.mp h
      exact List.mem_map.mpr ⟨p, hp, by simp [of_decide_eq_true hpk]⟩
  · exact List.mem_append.mpr (Or.inr (by simp))

/-- Entries with other keys survive a dict assignment. -/
theorem mem_dictInsert_of_ne (k : ℕ) (v : ℚ) (m : List (ℕ × ℚ)) (p : ℕ × ℚ)
    (hp : p ∈ m) (hne : p.1 ≠ k) : p ∈ dictInsert k v m := by
  rw [dictInsert]
  split
  · exact List.mem_map.mpr ⟨p, hp, by simp [hne]⟩
  · exact List.mem_append.mpr (Or.inl hp)

/-- An entry surviving a deletion was present and has a different
key. -/
theorem mem_dictDelete_elim (k : ℕ) (m : List (ℕ × ℚ)) (x : ℕ × ℚ)
    (hx : x ∈ dictDelete k m) : x ∈ m ∧ x.1 ≠ k := by
  rw [dictDelete] at hx
  have := List.of_mem_filter hx
  exact ⟨List.mem_of_mem_filter hx, by simpa using this⟩

/-- Entries with other keys survive a dict deletion. -/
theorem mem_dictDelete_of_ne (k : ℕ) (m : List (ℕ × ℚ)) (x : ℕ × ℚ)
    (hx : x ∈ m) (hne : x.1 ≠ k) : x ∈ dictDelete k m := by
  rw [dictDelete]
  exact List.mem_filter.mpr ⟨hx, by simpa using hne⟩

/-- Appending a note_on and recording its onset preserves the
closing invariant. -/
theorem ClosedInv_on_step (ppq T note vel : ℕ) (st : IngestState) (t' : ℕ)
    (ht : st.trackTime ≤ t') (hP : ClosedInv ppq T st) :
    ClosedInv ppq T ⟨st.events ++ [⟨EvKind.on, note, vel, tick2second t' ppq T⟩], T,
      dictInsert note (tick2second t' ppq T) st.active, t'⟩ := by
  obtain ⟨hT, hact, hev⟩ := hP
  refine ⟨rfl, ?_, ?_⟩
  · intro p hp
    rcases mem_dictInsert_elim _ _ _ p hp with rfl | ⟨hpm, hpk⟩
    · exact le_refl _
    · exact le_trans (hact p hpm) (tick2second_mono ppq T ht)
  · intro e he hon
    dsimp only at he
    rcases List.mem_append.mp he with he' | he'
    · rcases hev e he' hon with ⟨o, ho, h1, h2, h3⟩ | ⟨p, hp, h1, h2⟩
      · exact Or.inl ⟨o, List.mem_append_left _ ho, h1, h2, h3⟩
      · by_cases hpk : p.1 = note
        · refine Or.inr ⟨(note, tick2second t' ppq T), self_mem_dictInsert _ _ _,
            hpk ▸ h1, ?_⟩
          exact le_trans h2 (le_trans (hact p hp) (tick2second_mono ppq T ht))
        · exact Or.inr ⟨p, mem_dictInsert_of_ne _ _ _ p hp hpk, h1, h2⟩
    · have heq : e = ⟨EvKind.on, note, vel, tick2second t' ppq T⟩ := by simpa using he'
      subst heq
      exact Or.inr ⟨(note, tick2second t' ppq T), self_mem_dictInsert _ _ _, rfl, le_refl _⟩

/-- Appending a note_off and clearing the pitch's pending onset
preserves the closing invariant: any note_on previously covered by the
map is now closed by the appended note_off, which is no earlier. -/
theorem ClosedInv_off_step (ppq T note : ℕ) (st : IngestState) (t' : ℕ)
    (ht : st.trackTime ≤ t') (hP : ClosedInv ppq T st) :
    ClosedInv ppq T ⟨st.events ++ [⟨EvKind.off, note, 0, tick2second t' ppq T⟩], T,
      dictDelete note st.active, t'⟩ := by
  obtain ⟨hT, hact, hev⟩ := hP
  refine ⟨rfl, ?_, ?_⟩
  · intro p hp
    exact le_trans (hact p (mem_dictDelete_elim _ _ p hp).1) (tick2second_mono ppq T ht)
  · intro e he hon
    dsimp only at he
    rcases List.mem_append.mp he with he' | he'
    · rcases hev e he' hon with ⟨o, ho, h1, h2, h3⟩ | ⟨p, hp, h1, h2⟩
      · exact Or.inl ⟨o, List.mem_append_left _ ho, h1, h2, h3⟩
      · by_cases hpk : p.1 = note
        · refine Or.inl ⟨⟨EvKind.off, note, 0, tick2second t' ppq T⟩,
            List.mem_append_right _ (by simp), rfl, hpk ▸ h1, ?_⟩
          exact le_trans h2 (le_trans (hact p hp) (tick2second_mono ppq T ht))
        · exact Or.inr ⟨p, mem_dictDelete_of_ne _ _ p hp hpk, h1, h2⟩
    · have heq : e = ⟨EvKind.off, note, 0, tick2second t' ppq T⟩ := by simpa using he'
      subst heq
      exact absurd hon (by simp)

/-- Every non-`set_tempo` message preserves the closing invariant. -/
theorem processMsg_ClosedInv (ppq T : ℕ) (st : IngestState) (msg : MidiMsg)
    (hm : msg.setTempoVal = none) (hP : ClosedInv ppq T st) :
    ClosedInv ppq T (processMsg ppq st msg) := by
  have hT := hP.1
  cases msg with
  | noteOn note vel d =>
      rw [processMsg]
      dsimp only [MidiMsg.delta]
      rw [hT]
      split
      · exact ClosedInv_on_step ppq T note vel st (st.trackTime + d) (Nat.le_add_right _ _) hP
      · exact ClosedInv_off_step ppq T note st (st.trackTime + d) (Nat.le_add_right _ _) hP
  | noteOff note vel d =>
      rw [processMsg]
      dsimp only [MidiMsg.delta]
      rw [hT]
      exact ClosedInv_off_step ppq T note st (st.trackTime + d) (Nat.le_add_right _ _) hP
  | setTempo tp d => exact absurd hm (by simp [MidiMsg.setTempoVal])
  | other d =>
      rw [processMsg]
      obtain ⟨-, hact, hev⟩ := hP
      exact ⟨hT, fun p hp =>
        le_trans (hact p hp) (tick2second_mono ppq T (Nat.le_add_right _ _)), hev⟩

/-- C2 (amended): for a single-track file without tempo changes,
every note_on in the processed timeline has at least one note_off for
the same pitch at an equal-or-later time — any pitch still open at the
end of ingestion is closed synthetically two seconds after its (last)
onset.  Scenario C holds concretely: `NoteOn(72, 90)` at 5.0 s with no
matching note_off yields a synthetic `NoteOff(72)` at 7.0 s.  The
unrestricted claim fails (see the counterexample), and "exactly one"
fails already for a pitch played twice. -/
theorem C2_single_track_closed (ppq : ℕ) (track : List MidiMsg)
    (hnt : ∀ m ∈ track, m.setTempoVal = none) :
    (∀ e ∈ process_midi_file ppq [track], e.kind = EvKind.on →
        ∃ o ∈ process_midi_file ppq [track],
          o.kind = EvKind.off ∧ o.note = e.note ∧ e.time ≤ o.time)
    ∧ process_midi_file 480 [[MidiMsg.noteOn 72 90 4800]]
        = [⟨EvKind.on, 72, 90, q 5⟩, ⟨EvKind.off, 72, 0, q 7⟩] := by
  refine ⟨?_, by decide⟩
  intro e he hon
  have hperm := List.perm_insertionSort timeLE (ingestEvents ppq [track])
  have he' : e ∈ ingestEvents ppq [track] := hperm.mem_iff.mp he
  have hinv : ClosedInv ppq (get_tempo [track]) (ingestState ppq [track]) := by
    rw [ingestState, List.foldl_cons, List.foldl_nil, processTrack]
    refine foldl_preserves (ClosedInv ppq (get_tempo [track])) (processMsg ppq) track _
      ⟨rfl, by simp, by simp⟩
      (fun st m hmem h => processMsg_ClosedInv ppq _ st m (hnt m hmem) h)
  obtain ⟨hT, hact, hev⟩ := hinv
  rcases List.mem_append.mp he' with hevm | hsyn
  · rcases hev e hevm hon with ⟨o, ho, h1, h2, h3⟩ | ⟨p, hp, h1, h2⟩
    · exact ⟨o, hperm.mem_iff.mpr (List.mem_append_left _ ho), h1, h2, h3⟩
    · refine ⟨⟨EvKind.off, p.1, 0, radd p.2 (q 2)⟩, ?_, rfl, h1, ?_⟩
      · apply hperm.mem_iff.mpr
        apply List.mem_append_right
        rw [syntheticOffs]
        exact List.mem_map.mpr ⟨p, hp, rfl⟩
      · rw [radd_eq, q_eq]
        push_cast
        linarith [h2]
  · rw [syntheticOffs] at hsyn
    obtain ⟨p, hp, hpe⟩ := List.mem_map.mp hsyn
    rw [← hpe] at hon
    exact absurd hon (by simp)

/-- Counterexample to C2 as stated: a structurally valid two-track
file — track 1 holds `NoteOn(60)` at tick 10, track 2 `NoteOff(60)` at
tick 0.  The shared open-note map lets track 2's note_off (0 s) close
track 1's note_on (1/96 s), so no synthetic note_off is emitted and
the note_on is left dangling: no note_off for pitch 60 exists at or
after its onset. -/
theorem C2_counterexample :
    ¬ (∀ e ∈ process_midi_file 480 [[MidiMsg.noteOn 60 90 10], [MidiMsg.noteOff 60 0 0]],
        e.kind = EvKind.on →
          ∃ o ∈ process_midi_file 480 [[MidiMsg.noteOn 60 90 10], [MidiMsg.noteOff 60 0 0]],
            o.kind = EvKind.off ∧ o.note = e.note ∧ e.time ≤ o.time) := by
  decide

/-- Witness for the amended C2: in the one-message track
`NoteOn(60)` at 0 s, the note_on is closed (by the synthetic note_off
at 2 s). -/
theorem C2_witness :
    ∃ o ∈ process_midi_file 480 [[MidiMsg.noteOn 60 90 0]],
      o.kind = EvKind.off ∧ o.note = 60 ∧ (0 : ℚ) ≤ o.time := by
  have h := (C2_single_track_closed 480 [MidiMsg.noteOn 60 90 0] (by decide)).1
    ⟨EvKind.on, 60, 90, 0⟩ (by decide) rfl
  exact h
/-- Batteries' `Rat.floor` is the floor of the `FloorRing` instance. -/
theorem rat_floor_eq_int_floor (x : ℚ) : Rat.floor x = ⌊x⌋ := rfl

/-- The kernel-evaluable half is one half. -/
theorem halfQ_eq : halfQ = 1 / 2 := by
  rw [halfQ, Rat.mkRat_eq_div]
  norm_num

/-- The embedded rounding is Mathlib's `round`. -/
theorem pyRound_eq (x : ℚ) : pyRound x = round x := by
  rw [pyRound, rat_floor_eq_int_floor, radd_eq, halfQ_eq, round_eq]

/-- Rounding is monotone. -/
theorem round_mono_rat {x y : ℚ} (h : x ≤ y) : round x ≤ round y := by
  rw [round_eq, round_eq]
  exact Int.floor_le_floor (by linarith)

/-- At the recorder's fixed resolution (480 ticks per beat, tempo
500000), seconds-to-ticks is rounding after scaling by 960 ticks per
second. -/
theorem second2tick_480 (sec : ℚ) : second2tick sec 480 500000 = round (sec * 960) := by
  rw [second2tick, pyRound_eq]
  have hd : ((sec.den : ℚ)) ≠ 0 := Nat.cast_ne_zero.mpr sec.den_nz
  congr 1
  rw [Rat.mkRat_eq_div]
  push_cast [Int.ofNat_eq_natCast]
  conv_rhs => rw [← Rat.num_div_den sec]
  field_simp
  ring
/-- A non-negative time encodes to a non-negative tick count. -/
theorem second2tick_nonneg (sec : ℚ) (h : 0 ≤ sec) : 0 ≤ second2tick sec 480 500000 := by
  rw [second2tick_480]
  have := round_mono_rat (show (0 : ℚ) ≤ sec * 960 by positivity)
  simpa using this

/-- Decoding a non-negative tick count divides by 960 ticks per
second. -/
theorem tick2second_toNat_480 (c : ℤ) (hc : 0 ≤ c) :
    tick2second c.toNat 480 500000 = (c : ℚ) / 960 := by
  rw [tick2second_eq]
  rw [show ((c.toNat : ℕ) : ℚ) = (c : ℚ) by exact_mod_cast congrArg Int.cast (Int.toNat_of_nonneg hc)]
  norm_num
  ring

/-- Snapping a non-negative time to the tick grid moves it by at most
one tick's duration (in fact at most half of one). -/
theorem decode_time_close (t : ℚ) (ht : 0 ≤ t) :
    |tick2second (second2tick t 480 500000).toNat 480 500000 - t|
      ≤ tick2second 1 480 500000 := by
  rw [second2tick_480]
  have hc : (0 : ℤ) ≤ round (t * 960) := by
    have := round_mono_rat (show (0 : ℚ) ≤ t * 960 by positivity)
    simpa using this
  rw [tick2second_toNat_480 _ hc]
  have habs := abs_sub_round (t * 960)
  rw [abs_le] at habs ⊢
  rw [tick2second_eq]
  norm_num
  constructor <;> [linarith [habs.1, habs.2]; linarith [habs.1, habs.2]]

/-- Re-ingesting the delta-encoded messages reproduces, event by
event, the recorded sequence with grid-snapped times: the decoder's
event list extends the accumulator with the decoded events, the tempo
stays at the recording tempo, and the open-note map evolves by
`stepActive`. -/
theorem decode_encodeLoop (l : List NoteEvent) :
    ∀ (prev : ℤ) (acc : List NoteEvent) (act : List (ℕ × ℚ)),
      0 ≤ prev →
      (∀ e ∈ l, prev ≤ second2tick e.time 480 500000) →
      (∀ e ∈ l, e.kind = EvKind.on → 0 < e.velocity) →
      List.Pairwise timeLE l →
      ((encodeLoop 480 500000 prev l).foldl (processMsg 480)
          ⟨acc, 500000, act, prev.toNat⟩).events = acc ++ l.map decodeEvent
      ∧ ((encodeLoop 480 500000 prev l).foldl (processMsg 480)
          ⟨acc, 500000, act, prev.toNat⟩).tempo = 500000
      ∧ ((encodeLoop 480 500000 prev l).foldl (processMsg 480)
          ⟨acc, 500000, act, prev.toNat⟩).active
          = (l.map decodeEvent).foldl stepActive act := by
  induction l with
  | nil =>
      intro prev acc act _ _ _ _
      exact ⟨by simp [encodeLoop], rfl, rfl⟩
  | cons e rest ih =>
      intro prev acc act h0 hle hvel hpw
      have hpc : prev ≤ second2tick e.time 480 500000 := hle e (by simp)
      have hc0 : (0 : ℤ) ≤ second2tick e.time 480 500000 := le_trans h0 hpc
      have htoNat : prev.toNat + ((second2tick e.time 480 500000) - prev).toNat
          = (second2tick e.time 480 500000).toNat := by omega
      have hle' : ∀ x ∈ rest, second2tick e.time 480 500000 ≤ second2tick x.time 480 500000 := by
        intro x hx
        rw [second2tick_480, second2tick_480]
        exact round_mono_rat (mul_le_mul_of_nonneg_right
          (List.rel_of_pairwise_cons hpw hx) (by norm_num))
      have hvel' : ∀ x ∈ rest, x.kind = EvKind.on → 0 < x.velocity :=
        fun x hx => hvel x (by simp [hx])
      have hpw' : List.Pairwise timeLE rest := hpw.of_cons
      obtain ⟨ih1, ih2, ih3⟩ := ih (second2tick e.time 480 500000)
        (acc ++ [decodeEvent e]) (stepActive act (decodeEvent e)) hc0 hle' hvel' hpw'
      rcases hk : e.kind with _ | _
      ·   have hv : 0 < e.velocity := hvel e (by simp) hk
          have hstep : processMsg 480 ⟨acc, 500000, act, prev.toNat⟩
              (MidiMsg.noteOn e.note e.velocity
                ((second2tick e.time 480 500000) - prev).toNat)
              = ⟨acc ++ [decodeEvent e], 500000, stepActive act (decodeEvent e),
                  (second2tick e.time 480 500000).toNat⟩ := by
            rw [processMsg]
            dsimp only [MidiMsg.delta]
            rw [if_pos hv, htoNat]
            simp [decodeEvent, stepActive, hk]
          rw [encodeLoop]
          simp only [hk]
          rw [List.foldl_cons, hstep]
          exact ⟨by rw [ih1, List.map_cons, List.append_assoc]; rfl, ih2,
            by rw [ih3, List.map_cons, List.foldl_cons]⟩
      ·   have hstep : processMsg 480 ⟨acc, 500000, act, prev.toNat⟩
              (MidiMsg.noteOff e.note 0
                ((second2tick e.time 480 500000) - prev).toNat)
              = ⟨acc ++ [decodeEvent e], 500000, stepActive act (decodeEvent e),
                  (second2tick e.time 480 500000).toNat⟩ := by
            rw [processMsg]
            dsimp only [MidiMsg.delta]
            rw [htoNat]
            simp [decodeEvent, stepActive, hk]
          rw [encodeLoop]
          simp only [hk]
          rw [List.foldl_cons, hstep]
          exact ⟨by rw [ih1, List.map_cons, List.append_assoc]; rfl, ih2,
            by rw [ih3, List.map_cons, List.foldl_cons]⟩

/-- A key present after an assignment is the assigned key or an old
one. -/
theorem mem_keys_dictInsert_elim (k n : ℕ) (v : ℚ) (m : List (ℕ × ℚ))
    (h : n ∈ (dictInsert k v m).map Prod.fst) :
    n = k ∨ n ∈ m.map Prod.fst := by
  rw [dictInsert_keys] at h
  split at h
  · exact Or.inr h
  · rcases List.mem_append.mp h with h' | h'
    · exact Or.inr h'
    · exact Or.inl (by simpa using h')

/-- A key present after a deletion is an old key different from the
deleted one. -/
theorem mem_keys_dictDelete_elim (k n : ℕ) (m : List (ℕ × ℚ))
    (h : n ∈ (dictDelete k m).map Prod.fst) :
    n ∈ m.map Prod.fst ∧ n ≠ k := by
  rw [dictDelete_keys] at h
  have := List.of_mem_filter h
  exact ⟨List.mem_of_mem_filter h, by simpa using this⟩

/-- A pitch left in the open-note map after replaying a sequence was
either there initially and never mentioned, or its last occurrence in
the sequence is a note_on. -/
theorem keys_foldl_stepActive (l : List NoteEvent) :
    ∀ (a : List (ℕ × ℚ)) (n : ℕ),
      n ∈ (l.foldl stepActive a).map Prod.fst →
      (n ∈ a.map Prod.fst ∧ ∀ e ∈ l, e.note ≠ n) ∨
      (∃ i : Fin l.length, (l.get i).kind = EvKind.on ∧ (l.get i).note = n ∧
        ∀ j : Fin l.length, i.1 < j.1 → (l.get j).note ≠ n) := by
  induction l with
  | nil => intro a n h; exact Or.inl ⟨h, by simp⟩
  | cons e t ih =>
      intro a n h
      rw [List.foldl_cons] at h
      rcases ih (stepActive a e) n h with ⟨h1, h2⟩ | ⟨⟨i, hi⟩, h1, h2, h3⟩
      · by_cases hen : e.note = n
        · rcases hk : e.kind with _ | _
          · refine Or.inr ⟨⟨0, by simp⟩, hk, hen, ?_⟩
            intro j hj
            rcases j with ⟨jv, hjv⟩
            cases jv with
            | zero => simp at hj
            | succ jv' =>
                have hjv' : jv' < t.length := by simpa using Nat.lt_of_succ_lt_succ hjv
                exact h2 (t.get ⟨jv', hjv'⟩) (List.get_mem t jv' hjv')
          · rw [stepActive, hk] at h1
            simp only [if_neg (by simp : ¬ EvKind.off = EvKind.on)] at h1
            have := mem_keys_dictDelete_elim e.note n a h1
            exact absurd hen (Ne.symm this.2)
        · have h1' : n ∈ a.map Prod.fst := by
            rw [stepActive] at h1
            split at h1
            · rcases mem_keys_dictInsert_elim e.note n _ a h1 with h' | h'
              · exact absurd h'.symm hen
              · exact h'
            · exact (mem_keys_dictDelete_elim e.note n a h1).1
          refine Or.inl ⟨h1', ?_⟩
          intro x hx
          rcases List.mem_cons.mp hx with rfl | hx'
          · exact hen
          · exact h2 x hx'
      · refine Or.inr ⟨⟨i + 1, by simpa using Nat.succ_lt_succ hi⟩, h1, h2, ?_⟩
        intro j hj
        rcases j with ⟨jv, hjv⟩
        cases jv with
        | zero => simp at hj
        | succ jv' =>
            have hjv' : jv' < t.length := by simpa using Nat.lt_of_succ_lt_succ hjv
            have hj2 : i < jv' := by simpa using hj
            exact h3 ⟨jv', hjv'⟩ hj2

/-- Replaying a balanced sequence from an empty open-note map ends
with the map empty, so decoding appends no synthetic note_off. -/
theorem foldl_stepActive_empty (l : List NoteEvent) (hb : BalancedEvents l) :
    l.foldl stepActive [] = [] := by
  cases hfold : l.foldl stepActive [] with
  | nil => rfl
  | cons p rest =>
      exfalso
      have hmem : p.1 ∈ (l.foldl stepActive []).map Prod.fst := by
        rw [hfold]; simp
      rcases keys_foldl_stepActive l [] p.1 hmem with ⟨h1, -⟩ | ⟨i, h1, h2, h3⟩
      · simp at h1
      · obtain ⟨j, hij, hjk, hjn⟩ := hb i h1
        exact h3 j hij (hjn.trans h2)

/-- Decoding preserves kinds and pitches, hence balance. -/
theorem balanced_map_decode (l : List NoteEvent) (hb : BalancedEvents l) :
    BalancedEvents (l.map decodeEvent) := by
  intro i hi
  rw [List.get_map] at hi
  obtain ⟨j, hij, hjk, hjn⟩ := hb ⟨i.1, by simpa using i.2⟩ hi
  refine ⟨⟨j.1, by simpa using j.2⟩, hij, ?_, ?_⟩
  · rw [List.get_map]
    exact hjk
  · rw [List.get_map, List.get_map]
    exact hjn

/-- Decoding preserves the time ordering, so the decoder's final sort
is the identity. -/
theorem pairwise_map_decode (l : List NoteEvent) (h1 : List.Pairwise timeLE l) :
    List.Pairwise timeLE (l.map decodeEvent) := by
  rw [List.pairwise_map]
  refine h1.imp ?_
  intro a b hab
  rw [timeLE] at hab ⊢
  show tick2second (second2tick a.time 480 500000).toNat 480 500000
    ≤ tick2second (second2tick b.time 480 500000).toNat 480 500000
  apply tick2second_mono
  have h : second2tick a.time 480 500000 ≤ second2tick b.time 480 500000 := by
    rw [second2tick_480, second2tick_480]
    exact round_mono_rat (mul_le_mul_of_nonneg_right hab (by norm_num))
  omega

/-- The round trip in full: decoding the saved file of a time-sorted,
non-negative, positive-velocity, balanced recording yields exactly the
per-event grid snap of the recording. -/
theorem decode_encode (events : List NoteEvent)
    (h0 : ∀ e ∈ events, 0 ≤ e.time)
    (h1 : List.Pairwise timeLE events)
    (h2 : ∀ e ∈ events, e.kind = EvKind.on → 0 < e.velocity)
    (h3 : BalancedEvents events) :
    process_midi_file 480 [save_recording_to_midi events] = events.map decodeEvent := by
  have hsort : List.insertionSort timeLE events = events :=
    List.Sorted.insertionSort_eq (show List.Sorted timeLE events from h1)
  have hsave : save_recording_to_midi events
      = MidiMsg.setTempo 500000 0 :: (encodeLoop 480 500000 0 events ++ [MidiMsg.other 0]) := by
    rw [save_recording_to_midi, hsort]
  have hgt : get_tempo [save_recording_to_midi events] = 500000 := by
    rw [hsave]; rfl
  have hle0 : ∀ e ∈ events, (0 : ℤ) ≤ second2tick e.time 480 500000 :=
    fun e he => second2tick_nonneg e.time (h0 e he)
  obtain ⟨hev, htp, hac⟩ := decode_encodeLoop events 0 [] [] le_rfl hle0 h2 h1
  have hstate : ingestState 480 [save_recording_to_midi events]
      = processMsg 480 ((encodeLoop 480 500000 0 events).foldl (processMsg 480)
          ⟨[], 500000, [], 0⟩) (MidiMsg.other 0) := by
    rw [ingestState, hgt, List.foldl_cons, List.foldl_nil, processTrack]
    show (save_recording_to_midi events).foldl (processMsg 480) ⟨[], 500000, [], 0⟩ = _
    rw [hsave, List.foldl_cons]
    show (encodeLoop 480 500000 0 events ++ [MidiMsg.other 0]).foldl (processMsg 480)
      ⟨[], 500000, [], 0⟩ = _
    rw [List.foldl_append, List.foldl_cons, List.foldl_nil]
  have hoev : ∀ (s : IngestState) (d : ℕ),
      processMsg 480 s (MidiMsg.other d) = ⟨s.events, s.tempo, s.active, s.trackTime + d⟩ :=
    fun s d => rfl
  have hevents : (ingestState 480 [save_recording_to_midi events]).events
      = events.map decodeEvent := by
    rw [hstate, hoev]
    show ((encodeLoop 480 500000 0 events).foldl (processMsg 480)
      ⟨[], 500000, [], 0⟩).events = _
    rw [show ((0 : ℤ).toNat) = 0 from rfl] at hev
    rw [hev]
    rfl
  have hactive : (ingestState 480 [save_recording_to_midi events]).active = [] := by
    rw [hstate, hoev]
    show ((encodeLoop 480 500000 0 events).foldl (processMsg 480)
      ⟨[], 500000, [], 0⟩).active = _
    rw [show ((0 : ℤ).toNat) = 0 from rfl] at hac
    rw [hac]
    exact foldl_stepActive_empty (events.map decodeEvent) (balanced_map_decode events h3)
  rw [process_midi_file, ingestEvents, hevents, hactive]
  rw [show syntheticOffs [] = [] from rfl, List.append_nil]
  exact List.Sorted.insertionSort_eq
    (show List.Sorted timeLE (events.map decodeEvent) from pairwise_map_decode events h1)

/-- C3 (amended): for a recorded sequence sorted by ascending
non-negative absolute time, with positive note_on velocities, in which
every note_on is followed by a note_off for the same pitch, decoding
the serialized MIDI file (default tempo 500000, tempo meta at time 0,
480 ticks per beat) reproduces the same ordered (pitch, on/off)
sequence, each event's time within one tick's duration of the
original.  Without the balance proviso the sequence is not reproduced:
ingestion appends synthetic note_offs for dangling note_ons (see the
counterexample). -/
theorem C3_roundtrip (events : List NoteEvent)
    (h0 : ∀ e ∈ events, 0 ≤ e.time)
    (h1 : List.Pairwise timeLE events)
    (h2 : ∀ e ∈ events, e.kind = EvKind.on → 0 < e.velocity)
    (h3 : BalancedEvents events) :
    List.Forall₂ (fun (d o : NoteEvent) => d.kind = o.kind ∧ d.note = o.note ∧
        |d.time - o.time| ≤ tick2second 1 480 500000)
      (process_midi_file 480 [save_recording_to_midi events]) events := by
  rw [decode_encode events h0 h1 h2 h3, List.forall₂_map_left_iff, List.forall₂_same]
  intro e he
  exact ⟨rfl, rfl, decode_time_close e.time (h0 e he)⟩

/-- Counterexample to C3 as stated: a recording consisting of a
single `NoteOn(60)` round-trips to *two* events — ingestion
synthesizes a closing `NoteOff(60)` — so the ordered (pitch, on/off)
sequence is not preserved for every recorded sequence. -/
theorem C3_counterexample :
    ¬ ((process_midi_file 480 [save_recording_to_midi [⟨EvKind.on, 60, 100, 0⟩]]).map
          (fun e => (e.kind, e.note))
        = ([⟨EvKind.on, 60, 100, 0⟩] : List NoteEvent).map (fun e => (e.kind, e.note))) := by
  decide

/-- Witness for the amended C3: the Scenario-B recording —
`NoteOn(60,100)` at 0 s, `NoteOff(60)` at 0.4 s — round-trips to the
same on/off pair with times within one tick. -/
theorem C3_witness :
    List.Forall₂ (fun (d o : NoteEvent) => d.kind = o.kind ∧ d.note = o.note ∧
        |d.time - o.time| ≤ tick2second 1 480 500000)
      (process_midi_file 480 [save_recording_to_midi
        [⟨EvKind.on, 60, 100, 0⟩, ⟨EvKind.off, 60, 0, mkRat 2 5⟩]])
      ([⟨EvKind.on, 60, 100, 0⟩, ⟨EvKind.off, 60, 0, mkRat 2 5⟩] : List NoteEvent) :=
  C3_roundtrip [⟨EvKind.on, 60, 100, 0⟩, ⟨EvKind.off, 60, 0, mkRat 2 5⟩]
    (by decide) (by decide) (by decide) (by decide)
end PianoLearning
